import Mathlib

/-!
Verification of the chunking, retry and merge engine of the `translatron`
JSON-translation tool.

The development shallowly embeds the repository's TypeScript source:

* `src/src/analyzer.ts` — `analyzeContent`, `subdivideChunk` and the
  token-budget constants;
* `src/src/utils.ts` — `findMissingTranslations`, `mergeTranslations`;
* `src/main.ts` — `createChunksFromAnalysis`, `validateAndRepairJSON`,
  the retry loop of `translateChunk` and the subdivision fallback
  `translateChunkWithFallback`.

JSON values are modelled by the inductive type `JValue` (strings, integers,
booleans, null and nested objects; the documents handled by the tool carry
no arrays).  JavaScript objects are modelled as ordered association lists,
matching the insertion-order semantics of `Object.entries`.

The GPT tokenizer (`encode` from the external `gpt-tokenizer` package) and
`JSON.parse` are runtime built-ins, not repository code; they are taken as
parameters (`tok : String → Nat` models `s => encode(s).length`,
`parse : List Char → Option JValue` models `JSON.parse`).  Concrete
instantiations are supplied where a theorem is evaluated on concrete input.
-/

namespace Translatron

/-- A JSON value as manipulated by the tool: string, number, boolean, null
or a nested object (an ordered list of key/value entries, mirroring
JavaScript object insertion order).  Numbers are modelled as integers. -/
inductive JValue where
  | str (s : String)
  | num (n : Int)
  | bool (b : Bool)
  | null
  | obj (entries : List (String × JValue))

/-- An ordered JavaScript object: the top level of a translatable document. -/
abbrev Doc := List (String × JValue)

/-- JavaScript truthiness of a `JValue` (`!existing[key]` in the source):
`""`, `0`, `false` and `null` are falsy, every object is truthy. -/
def truthy : JValue → Bool
  | .str s => s ≠ ""
  | .num n => n ≠ 0
  | .bool b => b
  | .null => false
  | .obj _ => true

/-- Property read `o[k]` on an object modelled as an ordered list:
the first entry with the given key. -/
def getProp : Doc → String → Option JValue
  | [], _ => none
  | (k', v) :: rest, k => if k' = k then some v else getProp rest k

/-- The list of top-level keys of a document, in order. -/
def keys (d : Doc) : List String := d.map Prod.fst

/-- Property write `o[k] = v` in insertion-order semantics: an existing
binding is updated in place, a new key is appended at the end. -/
def setKey (m : Doc) (k : String) (v : JValue) : Doc :=
  if m.any (fun kv => kv.1 = k) then
    m.map (fun kv => if kv.1 = k then (k, v) else kv)
  else m ++ [(k, v)]

/-- Escape of one character inside a JSON string literal
(the cases produced by `JSON.stringify` that matter here). -/
def escapeChar (c : Char) : String :=
  if c = '"' then "\\\""
  else if c = '\\' then "\\\\"
  else if c = '\n' then "\\n"
  else if c = '\t' then "\\t"
  else if c = '\r' then "\\r"
  else String.singleton c

/-- A JSON string literal: quoted and escaped. -/
def escapeString (s : String) : String :=
  "\"" ++ String.join (s.toList.map escapeChar) ++ "\""

mutual

/-- `JSON.stringify` on the modelled values (compact form, as the analyzer
uses it: `JSON.stringify(content)` with no pretty-printing). -/
def stringify : JValue → String
  | .str s => escapeString s
  | .num n => toString n
  | .bool b => if b then "true" else "false"
  | .null => "null"
  | .obj l => "\x7b" ++ stringifyEntries l ++ "\x7d"

/-- Comma-separated serialization of an object's entries. -/
def stringifyEntries : List (String × JValue) → String
  | [] => ""
  | [(k, v)] => escapeString k ++ ":" ++ stringify v
  | (k, v) :: kv' :: rest =>
      escapeString k ++ ":" ++ stringify v ++ "," ++ stringifyEntries (kv' :: rest)

end

/-! ## The Content Analyzer (`src/src/analyzer.ts`) -/

/-- `MAX_TOKENS` from `analyzer.ts`. -/
def MAX_TOKENS : Nat := 4000

/-- `BUFFER_TOKENS` from `analyzer.ts`. -/
def BUFFER_TOKENS : Nat := 1000

/-- `DEFAULT_CHUNK_SIZE` from `analyzer.ts`. -/
def DEFAULT_CHUNK_SIZE : Nat := 2000

/-- A recommended chunk boundary: `{ start, end, tokens }` in the source
(`end` is a Lean keyword, rendered here as `stop`). -/
structure Boundary where
  start : Nat
  stop : Nat
  tokens : Nat
deriving DecidableEq

/-- The result of `analyzeContent` (`FileAnalysis` in `analyzer.ts`). -/
structure FileAnalysis where
  totalTokens : Nat
  exceededLimit : Bool
  chunkCount : Nat
  recommendedChunks : List Boundary
deriving DecidableEq

/-- The standalone token estimate of one entry:
`encode(JSON.stringify({ [key]: value })).length`. -/
def entryTokens (tok : String → Nat) (kv : String × JValue) : Nat :=
  tok (stringify (.obj [kv]))

/-- The entry-accumulation loop of `analyzeContent`: walks the per-entry
token estimates with the running chunk `cur` and the already closed chunks
`acc`, exactly as the `for` loop over `jsonEntries.entries()` does. -/
def chunkWalk (target : Nat) : List Nat → Nat → Boundary → List Boundary → List Boundary
  | [], _, cur, acc => if 0 < cur.tokens then acc ++ [cur] else acc
  | e :: rest, idx, cur, acc =>
    if target < cur.tokens + e then
      chunkWalk target rest (idx + 1) ⟨idx, idx, e⟩
        (if 0 < cur.tokens then acc ++ [cur] else acc)
    else
      chunkWalk target rest (idx + 1) ⟨cur.start, idx, cur.tokens + e⟩ acc

/-- `analyzeContent` from `analyzer.ts`, parameterized by the tokenizer
`tok` (modelling `s => encode(s).length`). -/
def analyzeContent (tok : String → Nat) (content : Doc) (targetChunkSize : Nat) :
    FileAnalysis :=
  let totalTokens := tok (stringify (.obj content))
  let exceededLimit : Bool := decide (targetChunkSize < totalTokens)
  let recommendedChunks :=
    if exceededLimit then
      chunkWalk targetChunkSize (content.map (entryTokens tok)) 0 ⟨0, 0, 0⟩ []
    else []
  { totalTokens := totalTokens
    exceededLimit := exceededLimit
    chunkCount := if recommendedChunks.isEmpty then 1 else recommendedChunks.length
    recommendedChunks := recommendedChunks }

/-- `subdivideChunk` from `analyzer.ts`: re-analyze with half the current
chunk size, floored at 500 tokens (`Math.max(500, Math.floor(size / 2))`). -/
def subdivideChunk (tok : String → Nat) (content : Doc) (currentChunkSize : Nat) :
    FileAnalysis :=
  analyzeContent tok content (max 500 (currentChunkSize / 2))

/-! ## The Chunk Builder (`src/main.ts`) -/

/-- A materialized chunk (`Chunk` in `main.ts`). -/
structure Chunk where
  content : Doc
  path : List String
  tokens : Nat

/-- A chunk's translation (`TranslationResult` in `main.ts`). -/
structure TranslationResult where
  originalPath : List String
  translatedContent : Doc

/-- `createChunksFromAnalysis` from `main.ts`:
`entries.slice(chunk.start, chunk.end + 1)` for each boundary. -/
def createChunksFromAnalysis (json : Doc) (chunks : List Boundary) : List Chunk :=
  chunks.map fun c =>
    { content := (json.drop c.start).take (c.stop + 1 - c.start)
      path := []
      tokens := c.tokens }

/-- The slice of a document selected by a boundary (the `content` that
`createChunksFromAnalysis` materializes for it). -/
def sliceB (json : Doc) (c : Boundary) : Doc :=
  (json.drop c.start).take (c.stop + 1 - c.start)

/-! ## The Diff Engine (`src/src/utils.ts`) -/

/-- `findMissingTranslations` from `utils.ts`.  The walk is over the
entries of `original`; a key is missing when absent from `existing` or
bound to a falsy value.  For an object-valued entry whose existing value is
truthy, the source recurses after casting `existing[key]` to a record: when
that value is in fact a truthy primitive the recursive call's `key in
existing` check throws a `TypeError` as soon as the nested object is
non-empty (an empty nested object returns `{}` before touching `existing`).
Errors are modelled with `Except`. -/
def findMissingTranslations : Doc → Doc → Except String Doc
  | [], _ => .ok []
  | (key, value) :: rest, existing =>
    match getProp existing key with
    | none => (findMissingTranslations rest existing).map (fun tail => (key, value) :: tail)
    | some ev =>
      if truthy ev then
        match value with
        | .obj ventries =>
          match ev with
          | .obj eentries =>
            match findMissingTranslations ventries eentries with
            | .error e => .error e
            | .ok nested =>
              (findMissingTranslations rest existing).map
                (fun tail => if nested.isEmpty then tail else (key, .obj nested) :: tail)
          | _ =>
            if ventries.isEmpty then findMissingTranslations rest existing
            else .error "TypeError"
        | _ => findMissingTranslations rest existing
      else (findMissingTranslations rest existing).map (fun tail => (key, value) :: tail)
termination_by original _ => sizeOf original

/-! ## The Merge Engine (`src/src/utils.ts`) -/

/-- The own enumerable properties captured by `{ ...existing }` when
`existing` is an arbitrary JavaScript value: an object spreads to its
entries, a string to its character-indexed entries, and numbers, booleans
and `null` spread to nothing. -/
def jsSpread : JValue → Doc
  | .obj l => l
  | .str s => (s.toList.enum).map (fun ic => (toString ic.1, JValue.str (String.singleton ic.2)))
  | _ => []

/-- Property read `existing[key]` on an arbitrary JavaScript value (the
source reads `existing[key]` through a cast, so `existing` may be a
primitive): objects by key, strings by index or `length`; prototype
methods are not modelled.  Reads on numbers, booleans and `null` yield
`undefined` (`none`). -/
def jsGet : JValue → String → Option JValue
  | .obj l, k => getProp l k
  | .str s, k =>
    if k = "length" then some (.num s.length)
    else getProp (jsSpread (.str s)) k
  | _, _ => none

/-- The base passed to the recursive merge:
`(existing[key] as Record<string, unknown>) || {}`. -/
def mergeBase (existing : JValue) (k : String) : JValue :=
  match jsGet existing k with
  | some bv => if truthy bv then bv else .obj []
  | none => .obj []

/-- The `for` loop of `mergeTranslations`: folds the entries of
`newTranslations` into the accumulator `merged` (initially
`{ ...existing }`), reading nested bases from the original `existing`. -/
def mergeLoop : JValue → Doc → Doc → Doc
  | _, merged, [] => merged
  | existing, merged, (k, v) :: rest =>
    match v with
    | .obj ventries =>
      let base := mergeBase existing k
      mergeLoop existing
        (setKey merged k (.obj (mergeLoop base (jsSpread base) ventries))) rest
    | _ => mergeLoop existing (setKey merged k v) rest
termination_by _ _ newT => sizeOf newT

/-- `mergeTranslations` from `utils.ts`.  The first argument is a `JValue`
rather than a `Doc` because the source recursively passes
`existing[key] || {}` — an arbitrary value — through a cast; at top level
the callers always pass an object. -/
def mergeTranslations (existing : JValue) (newTranslations : Doc) : Doc :=
  mergeLoop existing (jsSpread existing) newTranslations

/-! ## Response repair (`validateAndRepairJSON` in `src/main.ts`)

The repair pass applies two JavaScript regex replaces to the trimmed
response:

* `.replace(/^[^{]*({.*$)/, "$1")` — without the `s` flag `.` does not
  match a newline while the negated class `[^{]*` does, and without the
  `m` flag `$` matches at the end of the string or just before a final
  newline.  So the pattern matches exactly when, after the first `{`, the
  remaining characters contain no newline (except possibly a single final
  one), and replacing the matched prefix by the capture drops everything
  before the first `{`.
* `.replace(/^(.*})[^}]*$/, "$1")` — `(.*})` is confined to the first
  line, `[^}]*` may span newlines; the pattern matches exactly when the
  string contains a `}`, no `}` follows the last one by construction, and
  no newline precedes the last `}`; the result keeps the string up to and
  including the last `}`.

Strings are handled as `List Char` to keep the index arithmetic direct.
-/

/-- The whitespace stripped by `String.prototype.trim` (common ASCII
whitespace; exotic Unicode space code points are not modelled). -/
def isJsWhitespace (c : Char) : Bool :=
  c = ' ' || c = '\t' || c = '\n' || c = '\r' || c = '\x0b' || c = '\x0c'

/-- `jsonString.trim()`. -/
def jsTrim (l : List Char) : List Char :=
  ((l.dropWhile isJsWhitespace).reverse.dropWhile isJsWhitespace).reverse

/-- The first replace of the repair pass, `/^[^{]*({.*$)/` → `"$1"`:
drops everything before the first `{` provided the characters after that
`{` contain no newline (except possibly a single final one); otherwise the
regex does not match and the string is unchanged. -/
def repairLead (l : List Char) : List Char :=
  match l.findIdx? (fun c => c = '{') with
  | none => l
  | some i =>
    let t := l.drop (i + 1)
    if t.contains '\n' = false then l.drop i
    else if t.getLast? = some '\n' ∧ t.dropLast.contains '\n' = false then l.drop i
    else l

/-- Index of the last `}` of the string, if any. -/
def lastBraceIdx (l : List Char) : Option Nat :=
  match l.reverse.findIdx? (fun c => c = '}') with
  | none => none
  | some r => some (l.length - 1 - r)

/-- The second replace of the repair pass, `/^(.*})[^}]*$/` → `"$1"`:
keeps the string up to and including its last `}` provided no newline
precedes that `}`; otherwise the regex does not match and the string is
unchanged. -/
def repairTail (l : List Char) : List Char :=
  match lastBraceIdx l with
  | none => l
  | some j => if (l.take j).contains '\n' then l else l.take (j + 1)

/-- `validateAndRepairJSON` from `main.ts`, parameterized by `parse`
(modelling `JSON.parse`, a runtime built-in): parse directly; on failure
trim and apply the two regex replaces, then reparse; if that also fails,
raise the repair error (whose message carries the original parse error,
not modelled by the abstract `parse`). -/
def validateAndRepairJSON (parse : List Char → Option JValue) (jsonString : List Char) :
    Except String JValue :=
  match parse jsonString with
  | some v => .ok v
  | none =>
    let repairedJson := repairTail (repairLead (jsTrim jsonString))
    match parse repairedJson with
    | some v => .ok v
    | none => .error "Unable to repair invalid JSON"

/-! ## The retry layer (`translateChunk` in `src/main.ts`) -/

/-- `Object.keys` of an arbitrary parsed value: an object's keys, a
string's indices, nothing for numbers and booleans; `Object.keys(null)`
throws. -/
def jsObjectKeys : JValue → Except String (List String)
  | .obj l => .ok (keys l)
  | .str s => .ok (keys (jsSpread (.str s)))
  | .null => .error "TypeError"
  | _ => .ok []

/-- The body of one attempt inside `translateChunk`'s `while` loop, after
the LLM call: substitute `"{}"` for a null or empty completion
(`completion.choices[0].message.content || "{}"`), validate/repair the
JSON, then require every original key to appear among the translated keys.
`responseContent` is the completion's content (`none` for null). -/
def attemptBody (parse : List Char → Option JValue) (chunk : Chunk)
    (responseContent : Option String) : Except String JValue :=
  let response : String :=
    match responseContent with
    | none => "\x7b\x7d"
    | some s => if s = "" then "\x7b\x7d" else s
  match validateAndRepairJSON parse response.toList with
  | .error e => .error e
  | .ok translatedContent =>
    match jsObjectKeys translatedContent with
    | .error e => .error e
    | .ok translatedKeys =>
      if (keys chunk.content).all (fun k => translatedKeys.contains k) then
        .ok translatedContent
      else .error "Translation missing original keys"

/-- `${lastError?.message}` in the terminal failure message: a null
`lastError` renders as the string "undefined". -/
def lastMsg : Option String → String
  | some m => m
  | none => "undefined"

/-- The `while (attempts < maxRetries)` loop of `translateChunk`,
abstracting one whole attempt (LLM call plus `attemptBody`) as
`attempt : Nat → Except String TranslationResult` indexed by the attempt
counter.  The second component of the result records the backoff waits,
in milliseconds, performed by
`setTimeout(resolve, 1000 * attempts)` after each failed attempt. -/
def tcLoop (attempt : Nat → Except String TranslationResult) (maxRetries : Nat)
    (attempts : Nat) (lastError : Option String) :
    Except String TranslationResult × List Nat :=
  if _h : attempts < maxRetries then
    match attempt attempts with
    | .ok r => (.ok r, [])
    | .error e =>
      let rec_ := tcLoop attempt maxRetries (attempts + 1) (some e)
      (rec_.1, 1000 * (attempts + 1) :: rec_.2)
  else
    (.error ("Failed to translate chunk after " ++ toString maxRetries ++
        " attempts: " ++ lastMsg lastError), [])
termination_by maxRetries - attempts

/-- `translateChunk` from `main.ts`: the retry loop with the source's
retry ceiling `maxRetries = 1`, starting at `attempts = 0` with
`lastError = null`. -/
def translateChunk (attempt : Nat → Except String TranslationResult) :
    Except String TranslationResult × List Nat :=
  tcLoop attempt 1 0 none

/-! ## The subdivision fallback (`translateChunkWithFallback` in `src/main.ts`)

The retry layer's outcome depends on the external LLM, so it is abstracted
as `oracle : Chunk → Except String TranslationResult`.  Beside the
source's result, the model returns a ghost log recording the `depth`
argument of every invocation of the fallback, to state the depth bound. -/

mutual

/-- `translateChunkWithFallback` from `main.ts`: try the retry layer; on
failure rethrow if `depth >= 3`, otherwise subdivide the chunk's own
content via `subdivideChunk(chunk.content, chunk.tokens)`; if the
sub-analysis reports no split, rethrow the original error, else recurse on
each materialized sub-chunk at `depth + 1`, concatenating the results. -/
def translateChunkWithFallback (tok : String → Nat)
    (oracle : Chunk → Except String TranslationResult) (chunk : Chunk) (depth : Nat) :
    Except String (List TranslationResult) × List Nat :=
  match oracle chunk with
  | .ok result => (.ok [result], [depth])
  | .error e =>
    if h : 3 ≤ depth then (.error e, [depth])
    else
      let subAnalysis := subdivideChunk tok chunk.content chunk.tokens
      if subAnalysis.exceededLimit then
        let subChunks := createChunksFromAnalysis chunk.content subAnalysis.recommendedChunks
        let rest := twfList tok oracle subChunks (depth + 1)
        (rest.1, depth :: rest.2)
      else (.error e, [depth])
termination_by (4 - depth, 0)
decreasing_by
  simp_wf
  left
  omega

/-- The sequential `for` loop over the sub-chunks: each sub-chunk is
processed in order, results are concatenated, and the first failure
aborts the remaining sub-chunks (the exception propagates). -/
def twfList (tok : String → Nat) (oracle : Chunk → Except String TranslationResult)
    (chunks : List Chunk) (depth : Nat) :
    Except String (List TranslationResult) × List Nat :=
  match chunks with
  | [] => (.ok [], [])
  | c :: cs =>
    match translateChunkWithFallback tok oracle c depth with
    | (.error e, log) => (.error e, log)
    | (.ok rs, log) =>
      match twfList tok oracle cs depth with
      | (.error e, log') => (.error e, log ++ log')
      | (.ok rs', log') => (.ok (rs ++ rs'), log ++ log')
termination_by (4 - depth, chunks.length + 1)
decreasing_by
  · simp_wf
    right
    omega
  · simp_wf
    right
    omega

end

/-! ## Specification-side predicates

These predicates formalize the spec's notions used by the claims (they are
stated from the spec's words, to be compared with the behaviour of the
definitions above, which come from the source). -/

mutual

/-- "Full translation" of a document, parameterized by the admissible
replacements of string leaves: same keys in the same order, nested objects
translated recursively, string leaves replaced by a string accepted by
`strOk`, non-string leaves unchanged. -/
def isFullTranslationWith (strOk : String → Bool) : Doc → Doc → Bool
  | [], [] => true
  | [], _ :: _ => false
  | _ :: _, [] => false
  | (k, v) :: d, (k', w) :: t =>
    (k == k') && valRelB strOk v w && isFullTranslationWith strOk d t

/-- The per-value translation relation: nested objects recurse, a string
leaf is replaced by an admissible string, other leaves are unchanged. -/
def valRelB (strOk : String → Bool) : JValue → JValue → Bool
  | .obj dv, .obj tw => isFullTranslationWith strOk dv tw
  | .str _, .str s => strOk s
  | .num a, .num b => a == b
  | .bool a, .bool b => a == b
  | .null, .null => true
  | _, _ => false

end

/-- Full translation exactly as claim C4 words it: "every string leaf
replaced by a string, non-string leaves unchanged". -/
def isFullTranslationSpec : Doc → Doc → Bool :=
  isFullTranslationWith (fun _ => true)

/-- Full translation with non-empty replacement strings (the amended
hypothesis under which the diff-after-merge property holds). -/
def isFullTranslation : Doc → Doc → Bool :=
  isFullTranslationWith (fun s => s != "")

mutual

/-- Every leaf of the document is truthy (non-empty strings, non-zero
numbers, `true`, no `null` leaves), recursively. -/
def truthyDocB : Doc → Bool
  | [] => true
  | (_, v) :: rest => truthyValB v && truthyDocB rest

/-- Truthiness of one value: objects recurse into their entries, scalars
must be truthy. -/
def truthyValB : JValue → Bool
  | .obj l => truthyDocB l
  | w => truthy w

end

mutual

/-- Well-formed document: distinct keys at every nesting level (JavaScript
objects cannot carry duplicate keys). -/
def docNodupB : Doc → Bool
  | [] => true
  | (k, v) :: rest =>
    rest.all (fun kv => kv.1 != k) && valNodupB v && docNodupB rest

/-- Well-formedness of one value: objects recurse, scalars are fine. -/
def valNodupB : JValue → Bool
  | .obj l => docNodupB l
  | _ => true

end

/-- A concrete instantiation of the Tokenizer Adapter used to evaluate
theorems on concrete inputs: one token per character of the serialized
form (deterministic and positive on non-empty strings, like the real GPT
tokenizer's count). -/
def tokLen (s : String) : Nat := s.length

/-! ## Lemmas about the analyzer's accumulation loop -/

/-- The closed-chunks accumulator only ever receives appends: the loop's
result is the accumulator followed by the result from an empty
accumulator. -/
theorem chunkWalk_acc (target : Nat) (etks : List Nat) :
    ∀ (idx : Nat) (cur : Boundary) (acc : List Boundary),
      chunkWalk target etks idx cur acc = acc ++ chunkWalk target etks idx cur [] := by
  induction etks with
  | nil =>
    intro idx cur acc
    simp only [chunkWalk]
    split <;> simp
  | cons e tl ih =>
    intro idx cur acc
    simp only [chunkWalk]
    split
    · rw [ih (idx + 1) ⟨idx, idx, e⟩ (if 0 < cur.tokens then acc ++ [cur] else acc),
        ih (idx + 1) ⟨idx, idx, e⟩ (if 0 < cur.tokens then [] ++ [cur] else [])]
      split <;> simp
    · exact ih (idx + 1) ⟨cur.start, idx, cur.tokens + e⟩ acc

/-- Glueing a segment to the rest of the list. -/
theorem take_drop_glue (D : Doc) (s i : Nat) (h1 : s ≤ i) :
    (D.drop s).take (i - s) ++ D.drop i = D.drop s := by
  have h : D.drop i = (D.drop s).drop (i - s) := by
    rw [List.drop_drop]
    congr 1
    omega
  rw [h, List.take_append_drop]

/-- A boundary closing at the end of the document slices its whole tail. -/
theorem sliceB_to_end (D : Doc) (cur : Boundary) (h1 : cur.start ≤ cur.stop)
    (h2 : cur.stop + 1 = D.length) : sliceB D cur = D.drop cur.start := by
  unfold sliceB
  apply List.take_of_length_le
  simp only [List.length_drop]
  omega

/-- Invariant of the accumulation loop: starting from a running chunk that
covers `[cur.start, cur.stop]` with `idx = cur.stop + 1` entries already
folded and a positive token total, the chunks it produces slice the
document contiguously from `cur.start` to the end. -/
theorem chunkWalk_join (tok : String → Nat) (D : Doc) (target : Nat) :
    ∀ (rest : List Nat) (idx : Nat) (cur : Boundary),
      rest = (D.drop idx).map (entryTokens tok) →
      idx = cur.stop + 1 →
      cur.start ≤ cur.stop →
      cur.stop < D.length →
      0 < cur.tokens →
      (∀ e ∈ rest, 0 < e) →
      ((chunkWalk target rest idx cur []).map (sliceB D)).flatten = D.drop cur.start := by
  intro rest
  induction rest with
  | nil =>
    intro idx cur hrest hidx hse hsl htok _hpos
    have hdrop : D.drop idx = [] := List.map_eq_nil_iff.mp hrest.symm
    have hlen : D.length ≤ idx := List.drop_eq_nil_iff.mp hdrop
    have hidxlen : cur.stop + 1 = D.length := by omega
    simp only [chunkWalk]
    rw [if_pos htok]
    simp [sliceB_to_end D cur hse hidxlen]
  | cons e tl ih =>
    intro idx cur hrest hidx hse hsl htok hpos
    have hlt : idx < D.length := by
      by_contra hc
      push_neg at hc
      have hdrop : D.drop idx = [] := List.drop_eq_nil_iff.mpr hc
      rw [hdrop] at hrest
      simp at hrest
    have hcons : D.drop idx = D[idx] :: D.drop (idx + 1) := List.drop_eq_getElem_cons hlt
    rw [hcons] at hrest
    simp only [List.map_cons, List.cons.injEq] at hrest
    obtain ⟨he, htl⟩ := hrest
    have hrec := ih (idx + 1) ⟨idx, idx, e⟩ htl rfl (le_refl idx) hlt
      (hpos e (List.mem_cons_self e tl))
      (fun x hx => hpos x (List.mem_cons_of_mem e hx))
    have hrec' := ih (idx + 1) ⟨cur.start, idx, cur.tokens + e⟩ htl rfl
      (by show cur.start ≤ idx; omega) hlt
      (by show 0 < cur.tokens + e; omega)
      (fun x hx => hpos x (List.mem_cons_of_mem e hx))
    simp only [chunkWalk]
    by_cases hc : target < cur.tokens + e
    · rw [if_pos hc]
      rw [chunkWalk_acc target tl (idx + 1) ⟨idx, idx, e⟩]
      have hacc : (if 0 < cur.tokens then ([] : List Boundary) ++ [cur] else []) = [cur] := by
        rw [if_pos htok]
        rfl
      rw [hacc, List.map_append, List.flatten_append, hrec]
      have hslice : sliceB D cur = (D.drop cur.start).take (idx - cur.start) := by
        unfold sliceB
        congr 1
        omega
      simp only [List.map_cons, List.map_nil, List.flatten_cons, List.flatten_nil,
        List.append_nil, hslice]
      exact take_drop_glue D cur.start idx (by omega)
    · rw [if_neg hc]
      exact hrec'

/-- The recommended chunks of `analyzeContent`, when the limit is
exceeded, are the accumulation loop's output. -/
theorem analyzeContent_chunks_pos (tok : String → Nat) (D : Doc) (target : Nat)
    (h : target < tok (stringify (.obj D))) :
    (analyzeContent tok D target).recommendedChunks =
      chunkWalk target (D.map (entryTokens tok)) 0 ⟨0, 0, 0⟩ [] := by
  simp [analyzeContent, h]

/-- Splitting a non-empty document with positive per-entry token estimates
produces boundaries whose slices concatenate back to the document. -/
theorem analyzeContent_join (tok : String → Nat) (D : Doc) (target : Nat)
    (hpos : ∀ kv ∈ D, 0 < entryTokens tok kv) (hne : D ≠ [])
    (hex : (analyzeContent tok D target).exceededLimit = true) :
    (((analyzeContent tok D target).recommendedChunks).map (sliceB D)).flatten = D := by
  have hexc : target < tok (stringify (.obj D)) := by
    have hrfl : (analyzeContent tok D target).exceededLimit =
        decide (target < tok (stringify (.obj D))) := rfl
    rw [hrfl] at hex
    exact of_decide_eq_true hex
  rw [analyzeContent_chunks_pos tok D target hexc]
  cases D with
  | nil => exact absurd rfl hne
  | cons kv0 D' =>
    have hpos0 : 0 < entryTokens tok kv0 := hpos kv0 (List.mem_cons_self kv0 D')
    have hstep : chunkWalk target ((kv0 :: D').map (entryTokens tok)) 0 ⟨0, 0, 0⟩ [] =
        chunkWalk target (D'.map (entryTokens tok)) 1 ⟨0, 0, entryTokens tok kv0⟩ [] := by
      simp only [List.map_cons, chunkWalk]
      split <;> simp
    rw [hstep]
    have := chunkWalk_join tok (kv0 :: D') target (D'.map (entryTokens tok)) 1
      ⟨0, 0, entryTokens tok kv0⟩ (by simp) rfl (le_refl 0) (by simp) hpos0
      (fun x hx => by
        obtain ⟨kv, hkv, hkveq⟩ := List.mem_map.mp hx
        exact hkveq ▸ hpos kv (List.mem_cons_of_mem kv0 hkv))
    simpa using this

/-- Invariant of the accumulation loop for claim C9: every produced
boundary has `start ≤ stop`, and can exceed the target only when it covers
exactly one entry. -/
theorem chunkWalk_bounds (target : Nat) (etks : List Nat) :
    ∀ (idx : Nat) (cur : Boundary) (acc : List Boundary),
      cur.start ≤ cur.stop →
      cur.stop ≤ idx →
      (target < cur.tokens → cur.start = cur.stop) →
      (∀ b ∈ acc, b.start ≤ b.stop ∧ (target < b.tokens → b.start = b.stop)) →
      ∀ b ∈ chunkWalk target etks idx cur acc,
        b.start ≤ b.stop ∧ (target < b.tokens → b.start = b.stop) := by
  induction etks with
  | nil =>
    intro idx cur acc h1 _h2 h3 hacc b hb
    simp only [chunkWalk] at hb
    split at hb
    · rcases List.mem_append.mp hb with h | h
      · exact hacc b h
      · rw [List.mem_singleton.mp h]
        exact ⟨h1, h3⟩
    · exact hacc b hb
  | cons e tl ih =>
    intro idx cur acc h1 h2 h3 hacc b hb
    simp only [chunkWalk] at hb
    by_cases hc : target < cur.tokens + e
    · rw [if_pos hc] at hb
      refine ih (idx + 1) ⟨idx, idx, e⟩ _ (le_refl idx) (by show idx ≤ idx + 1; omega)
        (fun _ => rfl) ?_ b hb
      intro b' hb'
      by_cases ht : 0 < cur.tokens
      · rw [if_pos ht] at hb'
        rcases List.mem_append.mp hb' with h | h
        · exact hacc b' h
        · rw [List.mem_singleton.mp h]
          exact ⟨h1, h3⟩
      · rw [if_neg ht] at hb'
        exact hacc b' hb'
    · rw [if_neg hc] at hb
      refine ih (idx + 1) ⟨cur.start, idx, cur.tokens + e⟩ acc
        (by show cur.start ≤ idx; omega) (by show idx ≤ idx + 1; omega) ?_ hacc b hb
      intro hgt
      exact absurd hgt hc

/-- The contents materialized by the Chunk Builder are the boundary
slices. -/
theorem createChunks_content (json : Doc) (cs : List Boundary) :
    (createChunksFromAnalysis json cs).map Chunk.content = cs.map (sliceB json) := by
  unfold createChunksFromAnalysis sliceB
  rw [List.map_map]
  rfl

/-- Claim C3: for every non-empty document that the Analyzer splits
(`exceededLimit` true), with a tokenizer positive on every entry, the
materialized chunks are pairwise disjoint, contiguous and exhaustive over
the document's top-level entries: their contents concatenate in boundary
order to the document itself, and their key lists concatenate to the
document's full top-level key list, each key exactly once. -/
theorem C3_chunks_partition (tok : String → Nat) (D : Doc) (target : Nat)
    (hpos : ∀ kv ∈ D, 0 < entryTokens tok kv) (hne : D ≠ [])
    (hex : (analyzeContent tok D target).exceededLimit = true) :
    ((createChunksFromAnalysis D (analyzeContent tok D target).recommendedChunks).map
        Chunk.content).flatten = D ∧
    ((createChunksFromAnalysis D (analyzeContent tok D target).recommendedChunks).map
        (fun c => keys c.content)).flatten = keys D := by
  have hjoin : ((createChunksFromAnalysis D
      (analyzeContent tok D target).recommendedChunks).map Chunk.content).flatten = D := by
    rw [createChunks_content D]
    exact analyzeContent_join tok D target hpos hne hex
  refine ⟨hjoin, ?_⟩
  have hkeys : (createChunksFromAnalysis D
        (analyzeContent tok D target).recommendedChunks).map (fun c => keys c.content) =
      ((createChunksFromAnalysis D
        (analyzeContent tok D target).recommendedChunks).map Chunk.content).map
        (List.map Prod.fst) := by
    rw [List.map_map]
    rfl
  rw [hkeys, ← List.map_flatten, hjoin]
  rfl

/-- Concrete instance for C3: three entries of 12 tokens each against a
target of 10 split into three singleton chunks that reassemble the
document. -/
def DW3 : Doc := [("a", .str "aaaa"), ("b", .str "bbbb"), ("c", .str "cccc")]

/-- Concrete evaluation of C3. -/
theorem C3_witness :
    ((createChunksFromAnalysis DW3 (analyzeContent tokLen DW3 10).recommendedChunks).map
        Chunk.content).flatten = DW3 ∧
    ((createChunksFromAnalysis DW3 (analyzeContent tokLen DW3 10).recommendedChunks).map
        (fun c => keys c.content)).flatten = keys DW3 :=
  C3_chunks_partition tokLen DW3 10 (by decide) (by simp [DW3]) (by decide)

/-- Claim C9: every boundary produced by `analyzeContent` has
`start ≤ stop`, and a boundary whose token total exceeds the target covers
exactly one entry (`start = stop`): an oversized single entry is emitted
as its own singleton chunk, not rejected. -/
theorem C9_boundary_invariant (tok : String → Nat) (D : Doc) (target : Nat) (b : Boundary)
    (hb : b ∈ (analyzeContent tok D target).recommendedChunks) :
    b.start ≤ b.stop ∧ (target < b.tokens → b.start = b.stop) := by
  by_cases hex : target < tok (stringify (.obj D))
  · rw [analyzeContent_chunks_pos tok D target hex] at hb
    exact chunkWalk_bounds target (D.map (entryTokens tok)) 0 ⟨0, 0, 0⟩ []
      (le_refl 0) (le_refl 0) (fun _ => rfl)
      (fun b' hb' => absurd hb' (List.not_mem_nil b')) b hb
  · have hnil : (analyzeContent tok D target).recommendedChunks = [] := by
      simp [analyzeContent, hex]
    rw [hnil] at hb
    exact absurd hb (List.not_mem_nil b)

/-- Concrete instance for C9: a single 28-token entry against a target of
10 becomes the singleton boundary `⟨0, 0, 28⟩`. -/
def DW9 : Doc := [("k", .str "12345678901234567890")]

/-- Concrete evaluation of C9 at an oversized singleton boundary. -/
theorem C9_witness :
    (⟨0, 0, 28⟩ : Boundary).start ≤ (⟨0, 0, 28⟩ : Boundary).stop ∧
      (10 < (⟨0, 0, 28⟩ : Boundary).tokens →
        (⟨0, 0, 28⟩ : Boundary).start = (⟨0, 0, 28⟩ : Boundary).stop) :=
  C9_boundary_invariant tokLen DW9 10 ⟨0, 0, 28⟩ (by decide)

/-- Claim C8 as stated is false on the code: `analyzeContent` of the empty
document computes `encode(JSON.stringify({})).length = encode("{}").length`,
which is positive for any tokenizer that charges at least one token per
character of `"{}"` — here the concrete `tokLen` gives 2, not 0 (chunks
are empty and the limit is not exceeded, as the claim also says). -/
theorem C8_counterexample :
    (analyzeContent tokLen [] DEFAULT_CHUNK_SIZE).totalTokens ≠ 0 ∧
    (analyzeContent tokLen [] DEFAULT_CHUNK_SIZE).recommendedChunks = [] ∧
    (analyzeContent tokLen [] DEFAULT_CHUNK_SIZE).exceededLimit = false := by
  decide

/-- Claim C8 (amended): the empty document yields zero recommended chunks
and a chunk count of one unconditionally; its token total is the
tokenizer's cost of the serialized empty object `"{}"` (positive for the
real tokenizer, not zero), and the limit is exceeded exactly when that
cost exceeds the target. -/
theorem C8_empty_document (tok : String → Nat) (target : Nat) :
    (analyzeContent tok [] target).recommendedChunks = [] ∧
    (analyzeContent tok [] target).chunkCount = 1 ∧
    (analyzeContent tok [] target).totalTokens = tok "\x7b\x7d" ∧
    ((analyzeContent tok [] target).exceededLimit = true ↔ target < tok "\x7b\x7d") := by
  refine ⟨?_, ?_, rfl, ?_⟩
  · by_cases h : target < tok "\x7b\x7d" <;>
      simp [analyzeContent, chunkWalk, h, show stringify (.obj []) = "\x7b\x7d" from rfl]
  · by_cases h : target < tok "\x7b\x7d" <;>
      simp [analyzeContent, chunkWalk, h, show stringify (.obj []) = "\x7b\x7d" from rfl]
  · rw [show (analyzeContent tok [] target).exceededLimit =
        decide (target < tok "\x7b\x7d") from rfl]
    exact decide_eq_true_iff

/-- A tokenizer instantiation charging 100 tokens per character of the
serialized form: it satisfies the Tokenizer Adapter contract
(deterministic, non-negative) and lets a short concrete entry estimate
above the effective ceiling.  (With the real GPT tokenizer the same code
path is taken by a proportionally longer entry: `analyzeContent` contains
no ceiling check at all, whatever the tokenizer.) -/
def tokWord (s : String) : Nat := 100 * s.length

/-- Concrete instance for C1: a document whose single entry estimates at
4300 tokens, above the effective ceiling of 3000. -/
def DW1 : Doc := [("a", .str "aaaaaaaaaaaaaaaaaaaaaaaaaaaaaaaaaaa")]

/-- Claim C1 as stated is false on the code: `analyzeContent` has no
failure path at all.  At a concrete document whose single top-level entry
estimates at 4300 tokens — above `MAX_TOKENS - BUFFER_TOKENS = 3000` —
analysis succeeds and produces that entry as a singleton chunk instead of
failing fatally with no chunks. -/
theorem C1_counterexample :
    MAX_TOKENS - BUFFER_TOKENS <
        entryTokens tokWord ("a", .str "aaaaaaaaaaaaaaaaaaaaaaaaaaaaaaaaaaa") ∧
    (analyzeContent tokWord DW1 DEFAULT_CHUNK_SIZE).recommendedChunks = [⟨0, 0, 4300⟩] := by
  decide

/-- Claim C1 (amended): when an entry's token total exceeds the effective
ceiling, analysis does not fail: `analyzeContent` is total, and on any
non-empty over-target document (tokenizer positive on each entry) it still
produces at least one recommended chunk — the oversized entry is carried
as its own singleton chunk (see C9) and translation would be attempted. -/
theorem C1_no_failure (tok : String → Nat) (D : Doc) (target : Nat)
    (hpos : ∀ kv ∈ D, 0 < entryTokens tok kv) (hne : D ≠ [])
    (hex : (analyzeContent tok D target).exceededLimit = true) :
    (analyzeContent tok D target).recommendedChunks ≠ [] := by
  intro hnil
  have hjoin := analyzeContent_join tok D target hpos hne hex
  rw [hnil] at hjoin
  simp at hjoin
  exact hne hjoin

/-- Concrete evaluation of the amended C1. -/
theorem C1_witness : (analyzeContent tokWord DW1 DEFAULT_CHUNK_SIZE).recommendedChunks ≠ [] :=
  C1_no_failure tokWord DW1 DEFAULT_CHUNK_SIZE (by decide) (by simp [DW1]) (by decide)

/-! ## Lemmas about the subdivision fallback -/

/-- When the retry layer succeeds, the fallback returns its single result
and performs no subdivision. -/
theorem twf_ok (tok : String → Nat) (oracle : Chunk → Except String TranslationResult)
    (chunk : Chunk) (depth : Nat) (r : TranslationResult) (h : oracle chunk = .ok r) :
    translateChunkWithFallback tok oracle chunk depth = (.ok [r], [depth]) := by
  rw [translateChunkWithFallback, h]

/-- At the depth ceiling, a failing chunk's original error is re-raised. -/
theorem twf_ceiling (tok : String → Nat) (oracle : Chunk → Except String TranslationResult)
    (chunk : Chunk) (depth : Nat) (e : String) (h : oracle chunk = .error e)
    (hd : 3 ≤ depth) :
    translateChunkWithFallback tok oracle chunk depth = (.error e, [depth]) := by
  rw [translateChunkWithFallback, h]
  dsimp only
  rw [dif_pos hd]

/-- Below the ceiling, if re-analysis yields no further split, the
original error is re-raised. -/
theorem twf_nosplit (tok : String → Nat) (oracle : Chunk → Except String TranslationResult)
    (chunk : Chunk) (depth : Nat) (e : String) (h : oracle chunk = .error e)
    (hd : depth < 3)
    (hexc : (subdivideChunk tok chunk.content chunk.tokens).exceededLimit = false) :
    translateChunkWithFallback tok oracle chunk depth = (.error e, [depth]) := by
  rw [translateChunkWithFallback, h]
  dsimp only
  rw [dif_neg (by omega : ¬ 3 ≤ depth)]
  simp [hexc]

/-- Below the ceiling, if re-analysis splits the chunk, the fallback
recurses over the materialized sub-chunks at `depth + 1`. -/
theorem twf_split (tok : String → Nat) (oracle : Chunk → Except String TranslationResult)
    (chunk : Chunk) (depth : Nat) (e : String) (h : oracle chunk = .error e)
    (hd : depth < 3)
    (hexc : (subdivideChunk tok chunk.content chunk.tokens).exceededLimit = true) :
    translateChunkWithFallback tok oracle chunk depth =
      ((twfList tok oracle
          (createChunksFromAnalysis chunk.content
            (subdivideChunk tok chunk.content chunk.tokens).recommendedChunks)
          (depth + 1)).1,
        depth :: (twfList tok oracle
          (createChunksFromAnalysis chunk.content
            (subdivideChunk tok chunk.content chunk.tokens).recommendedChunks)
          (depth + 1)).2) := by
  rw [translateChunkWithFallback, h]
  dsimp only
  rw [dif_neg (by omega : ¬ 3 ≤ depth)]
  simp [hexc]

/-- Every depth recorded in the ghost log of a fallback call at `depth` is
at most `max depth 3`. -/
theorem twf_log_bound :
    ∀ (n : Nat) (tok : String → Nat) (oracle : Chunk → Except String TranslationResult)
      (depth : Nat), 4 - depth ≤ n →
      ∀ (chunk : Chunk) (d : Nat),
        d ∈ (translateChunkWithFallback tok oracle chunk depth).2 → d ≤ max depth 3 := by
  intro n
  induction n with
  | zero =>
    intro tok oracle depth hle chunk d hd
    have hdep : 3 ≤ depth := by omega
    cases ho : oracle chunk with
    | ok r =>
      rw [twf_ok tok oracle chunk depth r ho] at hd
      have : d = depth := List.mem_singleton.mp hd
      omega
    | error e =>
      rw [twf_ceiling tok oracle chunk depth e ho hdep] at hd
      have : d = depth := List.mem_singleton.mp hd
      omega
  | succ n ihn =>
    intro tok oracle depth hle chunk d hd
    by_cases hdep : 3 ≤ depth
    · cases ho : oracle chunk with
      | ok r =>
        rw [twf_ok tok oracle chunk depth r ho] at hd
        have : d = depth := List.mem_singleton.mp hd
        omega
      | error e =>
        rw [twf_ceiling tok oracle chunk depth e ho hdep] at hd
        have : d = depth := List.mem_singleton.mp hd
        omega
    · cases ho : oracle chunk with
      | ok r =>
        rw [twf_ok tok oracle chunk depth r ho] at hd
        have : d = depth := List.mem_singleton.mp hd
        omega
      | error e =>
        by_cases hexc :
            (subdivideChunk tok chunk.content chunk.tokens).exceededLimit = true
        · rw [twf_split tok oracle chunk depth e ho (by omega) hexc] at hd
          have hd' : d = depth ∨ d ∈ (twfList tok oracle
              (createChunksFromAnalysis chunk.content
                (subdivideChunk tok chunk.content chunk.tokens).recommendedChunks)
              (depth + 1)).2 := List.mem_cons.mp hd
          rcases hd' with h1 | h1
          · omega
          · -- bound the sub-list log via the induction hypothesis at depth + 1
            have hlist : ∀ (cs : List Chunk) (d' : Nat),
                d' ∈ (twfList tok oracle cs (depth + 1)).2 → d' ≤ max (depth + 1) 3 := by
              intro cs
              induction cs with
              | nil =>
                intro d' hd'
                simp [twfList] at hd'
              | cons c cs ihc =>
                intro d' hd'
                rw [twfList] at hd'
                rcases hw : translateChunkWithFallback tok oracle c (depth + 1) with
                  ⟨res, log⟩
                rw [hw] at hd'
                cases res with
                | error e' =>
                  simp only at hd'
                  have := ihn tok oracle (depth + 1) (by omega) c d'
                  rw [hw] at this
                  exact this hd'
                | ok rs =>
                  rcases hw2 : twfList tok oracle cs (depth + 1) with ⟨res2, log2⟩
                  rw [hw2] at hd'
                  cases res2 with
                  | error e2 =>
                    simp only at hd'
                    rcases List.mem_append.mp hd' with hm | hm
                    · have := ihn tok oracle (depth + 1) (by omega) c d'
                      rw [hw] at this
                      exact this hm
                    · have := ihc d'
                      rw [hw2] at this
                      exact this hm
                  | ok rs2 =>
                    simp only at hd'
                    rcases List.mem_append.mp hd' with hm | hm
                    · have := ihn tok oracle (depth + 1) (by omega) c d'
                      rw [hw] at this
                      exact this hm
                    · have := ihc d'
                      rw [hw2] at this
                      exact this hm
            have := hlist _ d h1
            omega
        · have hexc' : (subdivideChunk tok chunk.content chunk.tokens).exceededLimit = false := by
            revert hexc
            simp
          rw [twf_nosplit tok oracle chunk depth e ho (by omega) hexc'] at hd
          have : d = depth := List.mem_singleton.mp hd
          omega

/-- Claim C2: the subdivision fallback is invoked at most 3 nested levels
deep — every invocation in the call tree rooted at depth 0 carries a depth
at most 3 (the ghost log records each invocation's depth argument) — and
when the depth ceiling has been reached a failing chunk re-raises its
original error instead of subdividing further.  Termination holds by
construction: the recursion is well-founded on `(4 - depth, #sub-chunks)`.
-/
theorem C2_depth_bound (tok : String → Nat)
    (oracle : Chunk → Except String TranslationResult) (chunk : Chunk) :
    (∀ d ∈ (translateChunkWithFallback tok oracle chunk 0).2, d ≤ 3) ∧
    (∀ (depth : Nat) (e : String), 3 ≤ depth → oracle chunk = .error e →
      translateChunkWithFallback tok oracle chunk depth = (.error e, [depth])) := by
  constructor
  · intro d hd
    have := twf_log_bound 4 tok oracle 0 (by omega) chunk d hd
    omega
  · intro depth e hdep hfail
    exact twf_ceiling tok oracle chunk depth e hfail hdep

/-- A retry-layer oracle that always fails, for concrete evaluation of the
fallback claims. -/
def oracleFail : Chunk → Except String TranslationResult := fun _ => .error "boom"

/-- A small concrete chunk for evaluating the fallback claims. -/
def chunkW : Chunk := ⟨[("a", .str "x")], [], 5⟩

/-- Concrete evaluation of C2: at the depth ceiling the original error is
re-raised unchanged. -/
theorem C2_witness :
    translateChunkWithFallback tokLen oracleFail chunkW 3 = (.error "boom", [3]) :=
  (C2_depth_bound tokLen oracleFail chunkW).2 3 "boom" (by omega) rfl

/-- Claim C7: on a terminal failure below the depth ceiling the fallback
re-analyzes the failed chunk's own content at the halved size floored at
500 tokens (`subdivideChunk(chunk.content, chunk.tokens)` =
`analyzeContent(content, max 500 (tokens / 2))`); if that analysis reports
no further split the original error is re-raised, otherwise the same
fallback is applied to each materialized sub-chunk at `depth + 1`, and the
per-sub-chunk results are concatenated in order. -/
theorem C7_subdivision (tok : String → Nat)
    (oracle : Chunk → Except String TranslationResult) (chunk : Chunk) (depth : Nat)
    (e : String) (hfail : oracle chunk = .error e) (hdepth : depth < 3) :
    (subdivideChunk tok chunk.content chunk.tokens =
        analyzeContent tok chunk.content (max 500 (chunk.tokens / 2))) ∧
    ((subdivideChunk tok chunk.content chunk.tokens).exceededLimit = false →
      translateChunkWithFallback tok oracle chunk depth = (.error e, [depth])) ∧
    ((subdivideChunk tok chunk.content chunk.tokens).exceededLimit = true →
      translateChunkWithFallback tok oracle chunk depth =
        ((twfList tok oracle
            (createChunksFromAnalysis chunk.content
              (subdivideChunk tok chunk.content chunk.tokens).recommendedChunks)
            (depth + 1)).1,
          depth :: (twfList tok oracle
            (createChunksFromAnalysis chunk.content
              (subdivideChunk tok chunk.content chunk.tokens).recommendedChunks)
            (depth + 1)).2)) ∧
    (∀ (c : Chunk) (cs : List Chunk) (d : Nat) (rs₁ rs₂ : List TranslationResult)
        (log₁ log₂ : List Nat),
      translateChunkWithFallback tok oracle c d = (.ok rs₁, log₁) →
      twfList tok oracle cs d = (.ok rs₂, log₂) →
      twfList tok oracle (c :: cs) d = (.ok (rs₁ ++ rs₂), log₁ ++ log₂)) := by
  refine ⟨rfl, ?_, ?_, ?_⟩
  · intro hexc
    exact twf_nosplit tok oracle chunk depth e hfail hdepth hexc
  · intro hexc
    exact twf_split tok oracle chunk depth e hfail hdepth hexc
  · intro c cs d rs₁ rs₂ log₁ log₂ h₁ h₂
    rw [twfList, h₁, h₂]

/-- Concrete evaluation of C7: an un-splittable failed chunk (its content
is far below the floored target of 500) re-raises the original error. -/
theorem C7_witness :
    translateChunkWithFallback tokLen oracleFail chunkW 0 = (.error "boom", [0]) :=
  (C7_subdivision tokLen oracleFail chunkW 0 "boom" rfl (by omega)).2.1 (by decide)

/-! ## Lemmas about the retry loop -/

/-- If every attempt from `j` on fails, the retry loop performs the
backoff `1000 * (i + 1)` after each failed attempt `i` and terminates with
the failure message carrying the last error. -/
theorem tcLoop_all_fail (attempt : Nat → Except String TranslationResult)
    (err : Nat → String) (m : Nat) :
    ∀ (d j : Nat) (last : Option String), m - j = d → j < m →
      (∀ i, j ≤ i → i < m → attempt i = .error (err i)) →
      tcLoop attempt m j last =
        (.error ("Failed to translate chunk after " ++ toString m ++ " attempts: " ++
            err (m - 1)),
          (List.range' (j + 1) (m - j)).map (fun i => 1000 * i)) := by
  intro d
  induction d with
  | zero =>
    intro j last hd hj _hfail
    omega
  | succ d ihd =>
    intro j last hd hj hfail
    rw [tcLoop.eq_def, dif_pos hj, hfail j (le_refl j) hj]
    dsimp only
    by_cases hj1 : j + 1 < m
    · rw [ihd (j + 1) (some (err j)) (by omega) hj1
        (fun i hi1 hi2 => hfail i (by omega) hi2)]
      dsimp only
      have hr : List.range' (j + 1) (m - j) = (j + 1) :: List.range' (j + 2) (m - (j + 1)) := by
        have hmj : m - j = (m - (j + 1)) + 1 := by omega
        rw [hmj, List.range'_succ]
      rw [hr]
      rfl
    · have hjm : j + 1 = m := by omega
      rw [tcLoop.eq_def, dif_neg (by omega)]
      dsimp only
      have hm1 : m - 1 = j := by omega
      have hr : List.range' (j + 1) (m - j) = [j + 1] := by
        have hmj : m - j = 1 := by omega
        rw [hmj, List.range'_one]
      rw [hm1, hr]
      rfl

/-- Claim C5: on each failed attempt `translateChunk` waits
`(attempt number) × 1000` ms and re-enters the loop, up to the fixed retry
ceiling (`maxRetries = 1` in the source); exhausting the retries raises
the terminal failure whose message carries the last underlying error.
The third conjunct states the loop's behaviour for an arbitrary ceiling,
the first two its instantiation at the source's `maxRetries = 1`. -/
theorem C5_retry_backoff (attempt : Nat → Except String TranslationResult) :
    (∀ r, attempt 0 = .ok r → translateChunk attempt = (.ok r, [])) ∧
    (∀ e, attempt 0 = .error e →
      translateChunk attempt =
        (.error ("Failed to translate chunk after 1 attempts: " ++ e), [1000])) ∧
    (∀ (m : Nat) (err : Nat → String), 0 < m →
      (∀ i, i < m → attempt i = .error (err i)) →
      tcLoop attempt m 0 none =
        (.error ("Failed to translate chunk after " ++ toString m ++ " attempts: " ++
            err (m - 1)),
          (List.range' 1 m).map (fun i => 1000 * i))) := by
  refine ⟨?_, ?_, ?_⟩
  · intro r h
    rw [translateChunk, tcLoop.eq_def, dif_pos (by omega : (0 : Nat) < 1), h]
  · intro e h
    have := tcLoop_all_fail attempt (fun _ => e) 1 1 0 none rfl (by omega)
      (fun i _ hi2 => by
        have : i = 0 := by omega
        rw [this, h])
    simpa [translateChunk, List.range'_one] using this
  · intro m err hm hfail
    have := tcLoop_all_fail attempt err m (m - 0) 0 none rfl (by omega)
      (fun i _ hi2 => hfail i hi2)
    simpa using this

/-- A concrete always-failing attempt function. -/
def attemptFail : Nat → Except String TranslationResult := fun _ => .error "rate limited"

/-- Concrete evaluation of C5: the single attempt fails, one backoff of
1000 ms is performed, and the terminal failure carries the last error. -/
theorem C5_witness :
    translateChunk attemptFail =
      (.error "Failed to translate chunk after 1 attempts: rate limited", [1000]) :=
  (C5_retry_backoff attemptFail).2.1 "rate limited" rfl

/-- Claim C10: a null or empty completion content is replaced by the
literal `"{}"` before validation
(`completion.choices[0].message.content || "{}"`); for a chunk with at
least one key such a response can never yield a successful attempt — the
`"{}"` parses to the empty object, so the attempt fails with the
missing-original-keys error, not with a parse error and not with a
silently empty success. -/
theorem C10_empty_response (parse : List Char → Option JValue) (chunk : Chunk)
    (responseContent : Option String)
    (hparse : parse ("\x7b\x7d".toList) = some (.obj []))
    (hne : chunk.content ≠ [])
    (hresp : responseContent = none ∨ responseContent = some "") :
    attemptBody parse chunk responseContent = .error "Translation missing original keys" := by
  have hp : parse ('\x7b' :: '\x7d' :: []) = some (JValue.obj []) := hparse
  rcases hresp with h | h
  · subst h
    cases hc : chunk.content with
    | nil => exact absurd hc hne
    | cons kv rest =>
      simp [attemptBody, validateAndRepairJSON, hp, jsObjectKeys, keys, hc, List.contains]
  · subst h
    cases hc : chunk.content with
    | nil => exact absurd hc hne
    | cons kv rest =>
      simp [attemptBody, validateAndRepairJSON, hp, jsObjectKeys, keys, hc, List.contains]

/-- A concrete parse function recognizing exactly the literal `"{}"`,
consistent with `JSON.parse` on every string this evaluation touches. -/
def parseEmptyObj : List Char → Option JValue :=
  fun l => if l = "\x7b\x7d".toList then some (.obj []) else none

/-- Concrete evaluation of C10: a null completion for a one-key chunk
fails with the missing-original-keys error. -/
theorem C10_witness :
    attemptBody parseEmptyObj chunkW none = .error "Translation missing original keys" :=
  C10_empty_response parseEmptyObj chunkW none (by simp [parseEmptyObj]) (by simp [chunkW])
    (Or.inl rfl)

/-! ## Lemmas about the repair pass -/

/-- `contains` is false for a non-member. -/
theorem contains_eq_false_of_not_mem {l : List Char} {c : Char} (h : c ∉ l) :
    l.contains c = false := by
  simpa using h

/-- `dropWhile` over an append stops no later than a failing head. -/
theorem dropWhile_append_stop (f : Char → Bool) (a : List Char) (c : Char) (b : List Char)
    (hc : f c = false) :
    (a ++ c :: b).dropWhile f = a.dropWhile f ++ c :: b := by
  induction a with
  | nil => simp [List.dropWhile_cons, hc]
  | cons x xs ih =>
    by_cases hx : f x <;> simp [List.dropWhile_cons, hx, ih]

/-- Trimming a string of the form `prefix ++ json ++ suffix`, where the
json part starts with `{` and ends with `}` (both non-whitespace), trims
only inside the prefix and the suffix. -/
theorem jsTrim_decomp (p jrest jinit q : List Char)
    (hshape : '\x7b' :: jrest = jinit ++ ['\x7d']) :
    jsTrim (p ++ ('\x7b' :: jrest) ++ q) =
      p.dropWhile isJsWhitespace ++ ('\x7b' :: jrest) ++
        (q.reverse.dropWhile isJsWhitespace).reverse := by
  unfold jsTrim
  have h1 : (p ++ ('\x7b' :: jrest) ++ q).dropWhile isJsWhitespace =
      p.dropWhile isJsWhitespace ++ ('\x7b' :: jrest) ++ q := by
    have := dropWhile_append_stop isJsWhitespace p '\x7b' (jrest ++ q) (by decide)
    simpa [List.append_assoc] using this
  rw [h1]
  have h2 : (p.dropWhile isJsWhitespace ++ ('\x7b' :: jrest) ++ q).reverse =
      q.reverse ++ '\x7d' :: (jinit.reverse ++ (p.dropWhile isJsWhitespace).reverse) := by
    rw [hshape]
    simp [List.reverse_append, List.append_assoc]
  rw [h2]
  have h3 : (q.reverse ++ '\x7d' :: (jinit.reverse ++
        (p.dropWhile isJsWhitespace).reverse)).dropWhile isJsWhitespace =
      q.reverse.dropWhile isJsWhitespace ++ '\x7d' :: (jinit.reverse ++
        (p.dropWhile isJsWhitespace).reverse) :=
    dropWhile_append_stop isJsWhitespace q.reverse '\x7d' _ (by decide)
  rw [h3, hshape]
  simp [List.reverse_append, List.append_assoc]

/-- The first repair replace on `prefix ++ json ++ suffix`: when the
prefix holds no `{`, the json part starts with `{` and holds no newline,
and the suffix holds no newline, everything before the first `{` is
dropped. -/
theorem repairLead_decomp (p jrest q : List Char)
    (hp : '\x7b' ∉ p) (hjn : '\n' ∉ jrest) (hqn : '\n' ∉ q) :
    repairLead (p ++ ('\x7b' :: jrest) ++ q) = ('\x7b' :: jrest) ++ q := by
  unfold repairLead
  have hfind : (p ++ ('\x7b' :: jrest) ++ q).findIdx? (fun c => c = '\x7b') =
      some p.length := by
    rw [List.append_assoc, List.findIdx?_append]
    have hnone : p.findIdx? (fun c => c = '\x7b') = none :=
      List.findIdx?_eq_none_iff.mpr (fun x hx => by
        simp only [decide_eq_false_iff_not]
        intro heq
        exact hp (heq ▸ hx))
    rw [hnone]
    simp [List.findIdx?_cons]
  rw [hfind]
  have hdrop1 : (p ++ ('\x7b' :: jrest) ++ q).drop (p.length + 1) = jrest ++ q := by
    rw [List.append_assoc, List.drop_append 1]
    rfl
  have hnol : ((p ++ ('\x7b' :: jrest) ++ q).drop (p.length + 1)).contains '\n' = false := by
    rw [hdrop1]
    exact contains_eq_false_of_not_mem (by
      intro hmem
      rcases List.mem_append.mp hmem with h | h
      · exact hjn h
      · exact hqn h)
  simp only [hnol, if_true, if_pos rfl]
  rw [List.append_assoc, List.drop_left' rfl]

/-- The second repair replace on `json ++ suffix`: when the json part ends
with `}` and holds no newline and the suffix holds no `}`, everything
after the last `}` is dropped. -/
theorem repairTail_decomp (jinit q : List Char)
    (hjn : '\n' ∉ jinit) (hq : '\x7d' ∉ q) :
    repairTail ((jinit ++ ['\x7d']) ++ q) = jinit ++ ['\x7d'] := by
  unfold repairTail lastBraceIdx
  have hrev : ((jinit ++ ['\x7d']) ++ q).reverse = q.reverse ++ '\x7d' :: jinit.reverse := by
    simp [List.reverse_append, List.append_assoc]
  rw [hrev]
  have hfind : (q.reverse ++ '\x7d' :: jinit.reverse).findIdx? (fun c => c = '\x7d') =
      some q.length := by
    rw [List.findIdx?_append]
    have hnone : q.reverse.findIdx? (fun c => c = '\x7d') = none :=
      List.findIdx?_eq_none_iff.mpr (fun x hx => by
        simp only [decide_eq_false_iff_not]
        intro heq
        exact hq (heq ▸ List.mem_reverse.mp hx))
    rw [hnone]
    simp [List.findIdx?_cons]
  rw [hfind]
  dsimp only
  have hlen : ((jinit ++ ['\x7d']) ++ q).length - 1 - q.length = jinit.length := by
    simp
  rw [hlen]
  have htake : ((jinit ++ ['\x7d']) ++ q).take jinit.length = jinit := by
    rw [List.append_assoc]
    exact List.take_left' rfl
  have hnoNl : (((jinit ++ ['\x7d']) ++ q).take jinit.length).contains '\n' = false := by
    rw [htake]
    exact contains_eq_false_of_not_mem hjn
  simp only [hnoNl]
  rw [if_neg (by simp)]
  exact List.take_left' (by simp)

/-- Claim C6: `validateAndRepairJSON` first parses directly; on failure it
applies one repair pass (trim, strip before the first `{`, strip after the
last `}`) and reparses; if that also fails it raises the repair error.
For a response of the form `prefix ++ json ++ suffix` where the prefix
holds no `{`, the suffix holds no `}` and — as the repair regexes require,
since `.` does not match newlines — the json part and the suffix hold no
newline, the repair recovers exactly the embedded json text, so the
repaired parse returns the embedded object. -/
theorem C6_parse_repair (parse : List Char → Option JValue) :
    (∀ (s : List Char) (v : JValue), parse s = some v →
      validateAndRepairJSON parse s = .ok v) ∧
    (∀ s : List Char, parse s = none →
      parse (repairTail (repairLead (jsTrim s))) = none →
      validateAndRepairJSON parse s = .error "Unable to repair invalid JSON") ∧
    (∀ (p json q : List Char) (v : JValue),
      '\x7b' ∉ p → '\x7d' ∉ q → '\n' ∉ q →
      json.head? = some '\x7b' → json.getLast? = some '\x7d' → '\n' ∉ json →
      parse json = some v →
      parse (p ++ json ++ q) = none →
      validateAndRepairJSON parse (p ++ json ++ q) = .ok v) := by
  refine ⟨?_, ?_, ?_⟩
  · intro s v h
    unfold validateAndRepairJSON
    rw [h]
  · intro s h1 h2
    unfold validateAndRepairJSON
    rw [h1]
    dsimp only
    rw [h2]
  · intro p json q v hp hq1 hq2 hj1 hj2 hj3 hjson hfail
    obtain ⟨jrest, hjc⟩ : ∃ t, json = '\x7b' :: t := by
      cases json with
      | nil => simp at hj1
      | cons a t =>
        refine ⟨t, ?_⟩
        have ha : a = '\x7b' := by
          have : some a = some '\x7b' := hj1
          exact Option.some.inj this
        rw [ha]
    have hjne : json ≠ [] := by
      rw [hjc]
      exact List.cons_ne_nil _ _
    have hlast : json.getLast hjne = '\x7d' := by
      have := List.getLast?_eq_getLast json hjne
      rw [this] at hj2
      exact Option.some.inj hj2
    have hje : json = json.dropLast ++ ['\x7d'] := by
      conv_lhs => rw [← List.dropLast_append_getLast hjne]
      rw [hlast]
    have hshape : '\x7b' :: jrest = json.dropLast ++ ['\x7d'] := by
      rw [← hjc]
      exact hje
    have hq' : '\x7d' ∉ (q.reverse.dropWhile isJsWhitespace).reverse ∧
        '\n' ∉ (q.reverse.dropWhile isJsWhitespace).reverse := by
      constructor <;>
        · intro hmem
          have hmem' := (List.dropWhile_sublist isJsWhitespace).subset
            (List.mem_reverse.mp hmem)
          have := List.mem_reverse.mp hmem'
          first
          | exact hq1 this
          | exact hq2 this
    have hp' : '\x7b' ∉ p.dropWhile isJsWhitespace := by
      intro hmem
      exact hp ((List.dropWhile_sublist isJsWhitespace).subset hmem)
    have hjrn : '\n' ∉ jrest := by
      intro hmem
      exact hj3 (hjc ▸ List.mem_cons_of_mem _ hmem)
    have hjin : '\n' ∉ json.dropLast := by
      intro hmem
      exact hj3 ((List.dropLast_sublist json).subset hmem)
    unfold validateAndRepairJSON
    rw [hfail]
    dsimp only
    have htrim : jsTrim (p ++ json ++ q) =
        p.dropWhile isJsWhitespace ++ ('\x7b' :: jrest) ++
          (q.reverse.dropWhile isJsWhitespace).reverse := by
      rw [hjc]
      exact jsTrim_decomp p jrest json.dropLast q hshape
    have hlead : repairLead (p.dropWhile isJsWhitespace ++ ('\x7b' :: jrest) ++
        (q.reverse.dropWhile isJsWhitespace).reverse) =
        ('\x7b' :: jrest) ++ (q.reverse.dropWhile isJsWhitespace).reverse :=
      repairLead_decomp _ _ _ hp' hjrn hq'.2
    have htail : repairTail (('\x7b' :: jrest) ++
        (q.reverse.dropWhile isJsWhitespace).reverse) = json := by
      rw [hshape, repairTail_decomp json.dropLast _ hjin hq'.1]
      exact hje.symm
    rw [htrim, hlead, htail, hjson]

/-- A single-line json text `{"a":1}` as a character list. -/
def jsonSL : List Char := '\x7b' :: '"' :: 'a' :: '"' :: ':' :: '1' :: '\x7d' :: []

/-- A concrete parse function recognizing exactly `jsonSL`, consistent
with `JSON.parse` on every string the C6 witness evaluation touches. -/
def parseSL : List Char → Option JValue :=
  fun l => if l = jsonSL then some (.obj [("a", .num 1)]) else none

/-- Concrete evaluation of C6: a decorated single-line response is
repaired to the embedded object. -/
theorem C6_witness :
    validateAndRepairJSON parseSL
      (('n' :: 'o' :: 't' :: 'e' :: ':' :: ' ' :: []) ++ jsonSL ++ (';' :: [])) =
      .ok (.obj [("a", .num 1)]) :=
  (C6_parse_repair parseSL).2.2 ('n' :: 'o' :: 't' :: 'e' :: ':' :: ' ' :: []) jsonSL
    (';' :: []) (.obj [("a", .num 1)]) (by decide) (by decide) (by decide) (by decide)
    (by decide) (by decide) (by simp [parseSL])
    (by simp only [parseSL]; rw [if_neg (by decide)])

/-- A json object text that spans two lines (as `JSON.parse` accepts and
pretty-printed LLM output routinely produces). -/
def jsonML : List Char := '\x7b' :: '\n' :: '"' :: 'a' :: '"' :: ':' :: '1' :: '\x7d' :: []

/-- A concrete parse function recognizing exactly the two-line `jsonML`,
consistent with `JSON.parse` on every string the counterexample
evaluation touches. -/
def parseML : List Char → Option JValue :=
  fun l => if l = jsonML then some (.obj [("a", .num 1)]) else none

/-- Claim C6 as stated is false on the code: for the response
`"x" ++ jsonML` — prefix `"x"` holds no `{`, the suffix is empty, and
`jsonML` is valid JSON object text (the parse model accepts it) — the
repair does not recover the embedded object: the regexes use `.`, which
does not match the newline inside the json text, so neither replace fires
and the reparse fails with the repair error instead of returning the
object. -/
theorem C6_counterexample :
    parseML jsonML = some (.obj [("a", .num 1)]) ∧
    '\x7b' ∉ ('x' :: []) ∧
    validateAndRepairJSON parseML (('x' :: []) ++ jsonML ++ []) =
      .error "Unable to repair invalid JSON" := by
  refine ⟨by simp [parseML], by decide, ?_⟩
  rfl

/-! ## Lemmas about the Merge Engine -/

/-- Reading the written key from the in-place replacement map. -/
theorem getProp_replaceAll (rest : Doc) (k : String) (v : JValue)
    (hmem : rest.any (fun kv => kv.1 = k) = true) :
    getProp (rest.map (fun kv => if kv.1 = k then (k, v) else kv)) k = some v := by
  induction rest with
  | nil => simp at hmem
  | cons kv0 tail ih =>
    rcases kv0 with ⟨k0, v0⟩
    simp only [List.any_cons] at hmem
    rw [List.map_cons]
    dsimp only
    by_cases hk : k0 = k
    · rw [if_pos hk, getProp, if_pos rfl]
    · have htail : tail.any (fun kv => kv.1 = k) = true := by
        rcases Bool.or_eq_true_iff.mp hmem with h | h
        · exact absurd (of_decide_eq_true h) hk
        · exact h
      rw [if_neg hk, getProp, if_neg hk]
      exact ih htail

/-- Reading another key from the in-place replacement map. -/
theorem getProp_replaceAll_ne (rest : Doc) (k : String) (v : JValue) (k' : String)
    (h : k ≠ k') :
    getProp (rest.map (fun kv => if kv.1 = k then (k, v) else kv)) k' =
      getProp rest k' := by
  induction rest with
  | nil => simp [getProp]
  | cons kv0 tail ih =>
    rcases kv0 with ⟨k0, v0⟩
    rw [List.map_cons]
    dsimp only
    by_cases hk : k0 = k
    · rw [if_pos hk, getProp, getProp, if_neg h, if_neg (hk ▸ h)]
      exact ih
    · rw [if_neg hk, getProp, getProp]
      by_cases hk' : k0 = k'
      · rw [if_pos hk', if_pos hk']
      · rw [if_neg hk', if_neg hk']
        exact ih

/-- Reading a freshly appended key. -/
theorem getProp_append_single_self (rest : Doc) (k : String) (v : JValue) :
    getProp (rest ++ [(k, v)]) k = some v ∨
      ∃ w, getProp rest k = some w ∧ getProp (rest ++ [(k, v)]) k = some w := by
  induction rest with
  | nil =>
    left
    simp [getProp]
  | cons kv0 tail ih =>
    rcases kv0 with ⟨k0, v0⟩
    by_cases hk : k0 = k
    · right
      exact ⟨v0, by simp [getProp, hk], by simp [getProp, hk]⟩
    · rcases ih with h | ⟨w, h1, h2⟩
      · left
        simp [getProp, hk, h]
      · right
        exact ⟨w, by simp [getProp, hk, h1], by simp [getProp, hk, h2]⟩

/-- Reading another key past a single appended binding. -/
theorem getProp_append_single_ne (rest : Doc) (k : String) (v : JValue) (k' : String)
    (h : k ≠ k') :
    getProp (rest ++ [(k, v)]) k' = getProp rest k' := by
  induction rest with
  | nil => simp [getProp, h]
  | cons kv0 tail ih =>
    rcases kv0 with ⟨k0, v0⟩
    by_cases hk' : k0 = k' <;> simp [getProp, hk', ih]

/-- When the key is absent, the appended binding is read. -/
theorem getProp_append_single_of_none (rest : Doc) (k : String) (v : JValue)
    (hnone : getProp rest k = none) :
    getProp (rest ++ [(k, v)]) k = some v := by
  induction rest with
  | nil => simp [getProp]
  | cons kv0 tail ih =>
    rcases kv0 with ⟨k0, v0⟩
    by_cases hk : k0 = k
    · simp [getProp, hk] at hnone
    · simp only [getProp, if_neg hk] at hnone
      simp [getProp, hk, ih hnone]

/-- Absence of a key in the `any`-test means `getProp` misses. -/
theorem getProp_eq_none_of_any_false (m : Doc) (k : String)
    (hmem : m.any (fun kv => kv.1 = k) = false) :
    getProp m k = none := by
  induction m with
  | nil => rfl
  | cons kv0 tail ih =>
    rcases kv0 with ⟨k0, v0⟩
    simp only [List.any_cons, Bool.or_eq_false_iff] at hmem
    have hk : ¬ k0 = k := by simpa using hmem.1
    simp [getProp, hk, ih hmem.2]

/-- Writing a key makes it readable. -/
theorem getProp_setKey_self (m : Doc) (k : String) (v : JValue) :
    getProp (setKey m k v) k = some v := by
  unfold setKey
  by_cases hmem : m.any (fun kv => kv.1 = k) = true
  · rw [if_pos hmem]
    exact getProp_replaceAll m k v hmem
  · rw [if_neg hmem]
    exact getProp_append_single_of_none m k v
      (getProp_eq_none_of_any_false m k (Bool.eq_false_iff.mpr hmem))

/-- Writing a key does not change the others. -/
theorem getProp_setKey_ne (m : Doc) (k : String) (v : JValue) (k' : String)
    (h : k ≠ k') : getProp (setKey m k v) k' = getProp m k' := by
  unfold setKey
  by_cases hmem : m.any (fun kv => kv.1 = k) = true
  · rw [if_pos hmem]
    exact getProp_replaceAll_ne m k v k' h
  · rw [if_neg hmem]
    exact getProp_append_single_ne m k v k' h

/-- The value the merge loop writes for one entry of the new
translations: nested objects are merged against the base read from the
original `existing`, scalars are written as they are. -/
def newValFor (E : JValue) (k : String) : JValue → JValue
  | .obj tw => .obj (mergeTranslations (mergeBase E k) tw)
  | w => w

/-- One step of the merge loop. -/
theorem mergeLoop_cons (E : JValue) (m : Doc) (k0 : String) (w0 : JValue) (t : Doc) :
    mergeLoop E m ((k0, w0) :: t) = mergeLoop E (setKey m k0 (newValFor E k0 w0)) t := by
  cases w0 <;> simp [mergeLoop, newValFor, mergeTranslations]

/-- The merge loop leaves keys outside the new translations unchanged. -/
theorem getProp_mergeLoop_not_mem (E : JValue) (t : Doc) :
    ∀ (m : Doc) (k : String), k ∉ keys t →
      getProp (mergeLoop E m t) k = getProp m k := by
  induction t with
  | nil =>
    intro m k _h
    simp [mergeLoop]
  | cons kv0 rest ih =>
    intro m k hk
    rcases kv0 with ⟨k0, w0⟩
    have hne : k0 ≠ k := by
      intro h
      exact hk (h ▸ List.mem_cons_self k0 (keys rest))
    have hk' : k ∉ keys rest := fun h => hk (List.mem_cons_of_mem _ h)
    rw [mergeLoop_cons, ih _ k hk']
    exact getProp_setKey_ne m k0 _ k hne

/-- `mergeTranslations` maps every key of the new translations to the
merged value for its (unique) entry. -/
theorem getProp_mergeTranslations (E : JValue) (T : Doc) (k : String) (w : JValue)
    (hnd : (keys T).Nodup) (hmem : (k, w) ∈ T) :
    getProp (mergeTranslations E T) k = some (newValFor E k w) := by
  rw [mergeTranslations]
  generalize jsSpread E = m
  induction T generalizing m with
  | nil => exact absurd hmem (List.not_mem_nil _)
  | cons kv0 t ih =>
    rcases kv0 with ⟨k0, w0⟩
    have hnd0 : k0 ∉ keys t := (List.nodup_cons.mp hnd).1
    have hndt : (keys t).Nodup := (List.nodup_cons.mp hnd).2
    rw [mergeLoop_cons]
    rcases List.mem_cons.mp hmem with h | h
    · have hk : k = k0 := congrArg Prod.fst h
      have hw : w = w0 := congrArg Prod.snd h
      subst hk
      subst hw
      rw [getProp_mergeLoop_not_mem E t _ k hnd0]
      exact getProp_setKey_self m k (newValFor E k w)
    · have hk : k ≠ k0 := by
        intro he
        exact hnd0 (he ▸ (List.mem_map.mpr ⟨(k, w), h, rfl⟩))
      exact ih hndt h _

/-! ## Lemmas about the Diff Engine -/

/-- What makes one original entry report nothing against a merged value:
scalars need nothing further (their merged value being truthy is checked
separately), nested objects need an object-valued counterpart whose
recursive diff is empty. -/
def entryOkVal : JValue → JValue → Prop
  | .obj dv, mv => ∃ ml, mv = .obj ml ∧ findMissingTranslations dv ml = Except.ok []
  | _, _ => True

/-- If every entry of the original finds a truthy, structurally adequate
value in the existing document, the diff is empty. -/
theorem fmt_empty_of (D M : Doc)
    (h : ∀ kv ∈ D, ∃ mv, getProp M kv.1 = some mv ∧ truthy mv = true ∧
      entryOkVal kv.2 mv) :
    findMissingTranslations D M = .ok [] := by
  induction D with
  | nil => rw [findMissingTranslations]
  | cons kv d ih =>
    rcases kv with ⟨k, v⟩
    obtain ⟨mv, hget, htr, hval⟩ := h (k, v) (List.mem_cons_self _ _)
    have htail := ih (fun kv' hkv' => h kv' (List.mem_cons_of_mem _ hkv'))
    rw [findMissingTranslations, hget]
    dsimp only
    rw [if_pos htr]
    cases v with
    | obj dv =>
      obtain ⟨ml, hml, hnested⟩ := hval
      subst hml
      dsimp only
      rw [hnested, htail]
      simp [Except.map]
    | str s => exact htail
    | num n => exact htail
    | bool b => exact htail
    | null => exact htail

/-! ## Lemmas about full translations and well-formed documents -/

/-- Unfolding one entry of a full translation. -/
theorem fullTrans_cons (strOk : String → Bool) (k : String) (v : JValue) (k' : String)
    (w : JValue) (d t : Doc)
    (h : isFullTranslationWith strOk ((k, v) :: d) ((k', w) :: t) = true) :
    k = k' ∧ valRelB strOk v w = true ∧ isFullTranslationWith strOk d t = true := by
  rw [isFullTranslationWith] at h
  simp only [Bool.and_eq_true] at h
  obtain ⟨⟨hk, hv⟩, ht⟩ := h
  exact ⟨by simpa using hk, hv, ht⟩

/-- A full translation preserves the key list. -/
theorem fullTrans_shape (strOk : String → Bool) :
    ∀ (D T : Doc), isFullTranslationWith strOk D T = true → keys T = keys D := by
  intro D
  induction D with
  | nil =>
    intro T h
    cases T with
    | nil => rfl
    | cons b t =>
      rw [isFullTranslationWith] at h
      cases h
  | cons a d ih =>
    intro T h
    rcases a with ⟨k, v⟩
    cases T with
    | nil =>
      rw [isFullTranslationWith] at h
      cases h
    | cons b t =>
      rcases b with ⟨k', w⟩
      obtain ⟨hk, _, ht⟩ := fullTrans_cons strOk k v k' w d t h
      have ih' := ih t ht
      simp only [keys, List.map_cons] at ih' ⊢
      rw [ih', hk]

/-- Every original entry has a related counterpart in a full
translation. -/
theorem fullTrans_mem (strOk : String → Bool) :
    ∀ (D T : Doc), isFullTranslationWith strOk D T = true →
      ∀ kv ∈ D, ∃ w, (kv.1, w) ∈ T ∧ valRelB strOk kv.2 w = true := by
  intro D
  induction D with
  | nil =>
    intro T _ kv hkv
    exact absurd hkv (List.not_mem_nil _)
  | cons a d ih =>
    intro T h kv hkv
    rcases a with ⟨k, v⟩
    cases T with
    | nil =>
      rw [isFullTranslationWith] at h
      cases h
    | cons b t =>
      rcases b with ⟨k', w⟩
      obtain ⟨hk, hv, ht⟩ := fullTrans_cons strOk k v k' w d t h
      rcases List.mem_cons.mp hkv with h1 | h1
      · subst h1
        subst hk
        exact ⟨w, List.mem_cons_self _ _, hv⟩
      · obtain ⟨w', hmem, hrel⟩ := ih t ht kv h1
        exact ⟨w', List.mem_cons_of_mem _ hmem, hrel⟩

/-- A well-formed document has pairwise distinct top-level keys. -/
theorem docNodup_keys : ∀ D : Doc, docNodupB D = true → (keys D).Nodup := by
  intro D
  induction D with
  | nil =>
    intro _
    simp [keys]
  | cons kv d ih =>
    intro h
    rcases kv with ⟨k, v⟩
    rw [docNodupB] at h
    simp only [Bool.and_eq_true] at h
    obtain ⟨⟨hall, _⟩, hrest⟩ := h
    refine List.nodup_cons.mpr ⟨?_, ih hrest⟩
    intro hmem
    obtain ⟨kv', hkv', hfst⟩ := List.mem_map.mp hmem
    have := List.all_eq_true.mp hall kv' hkv'
    rw [hfst] at this
    simp at this

/-- Nested objects of a well-formed document are well-formed. -/
theorem docNodup_mem : ∀ D : Doc, docNodupB D = true →
    ∀ kv ∈ D, ∀ l, kv.2 = JValue.obj l → docNodupB l = true := by
  intro D
  induction D with
  | nil =>
    intro _ kv hkv
    exact absurd hkv (List.not_mem_nil _)
  | cons kv0 d ih =>
    intro h kv hkv l hl
    rcases kv0 with ⟨k, v⟩
    rw [docNodupB] at h
    simp only [Bool.and_eq_true] at h
    obtain ⟨⟨_, hv⟩, hrest⟩ := h
    rcases List.mem_cons.mp hkv with h1 | h1
    · subst h1
      have hv' : v = JValue.obj l := hl
      subst hv'
      exact hv
    · exact ih hrest kv h1 l hl

/-- Every value of a truthy-leaf document is truthy in the recursive
sense. -/
theorem truthyDoc_mem : ∀ D : Doc, truthyDocB D = true →
    ∀ kv ∈ D, truthyValB kv.2 = true := by
  intro D
  induction D with
  | nil =>
    intro _ kv hkv
    exact absurd hkv (List.not_mem_nil _)
  | cons kv0 d ih =>
    intro h kv hkv
    rcases kv0 with ⟨k, v⟩
    rw [truthyDocB] at h
    simp only [Bool.and_eq_true] at h
    obtain ⟨hv, hrest⟩ := h
    rcases List.mem_cons.mp hkv with h1 | h1
    · subst h1
      exact hv
    · exact ih hrest kv h1

/-! ## Claim C4 -/

/-- Main induction for C4, on the size of the original document: after a
full translation (non-empty replacement strings) of a well-formed
truthy-leaf document is merged into anything, the diff is empty. -/
theorem C4_aux : ∀ (n : Nat) (D : Doc), sizeOf D < n → ∀ (T : Doc) (E : JValue),
    docNodupB D = true → truthyDocB D = true → isFullTranslation D T = true →
    findMissingTranslations D (mergeTranslations E T) = Except.ok [] := by
  intro n
  induction n with
  | zero =>
    intro D hD
    omega
  | succ n ih =>
    intro D hD T E hnd htr hft
    apply fmt_empty_of
    intro kv hkv
    rcases kv with ⟨k, v⟩
    obtain ⟨w, hmemT, hrel⟩ := fullTrans_mem _ D T hft (k, v) hkv
    have hndT : (keys T).Nodup := by
      rw [fullTrans_shape _ D T hft]
      exact docNodup_keys D hnd
    have htv := truthyDoc_mem D htr (k, v) hkv
    refine ⟨newValFor E k w, getProp_mergeTranslations E T k w hndT hmemT, ?_, ?_⟩
    · cases v with
      | str s =>
        cases w <;> simp [valRelB] at hrel
        simpa [newValFor, truthy] using hrel
      | num a =>
        cases w <;> simp [valRelB] at hrel
        subst hrel
        simpa [newValFor, truthyValB, truthy] using htv
      | bool a =>
        cases w <;> simp [valRelB] at hrel
        subst hrel
        simpa [newValFor, truthyValB, truthy] using htv
      | null =>
        simp [truthyValB, truthy] at htv
      | obj dv =>
        cases w <;> simp [valRelB] at hrel
        rfl
    · cases v with
      | obj dv =>
        cases w <;> simp [valRelB] at hrel
        case obj tw =>
        refine ⟨mergeTranslations (mergeBase E k) tw, rfl, ?_⟩
        have hsz : sizeOf dv < n := by
          have h1 := List.sizeOf_lt_of_mem hkv
          have h2 : sizeOf ((k, JValue.obj dv) : String × JValue) =
              1 + sizeOf k + (1 + sizeOf dv) := by
            simp
          omega
        exact ih dv hsz tw (mergeBase E k)
          (docNodup_mem D hnd (k, .obj dv) hkv dv rfl)
          (by simpa [truthyValB] using htv) hrel
      | str s => exact trivial
      | num a => exact trivial
      | bool a => exact trivial
      | null => exact trivial

/-- Claim C4 as stated is false on the code: with `D = T = {"a": 0}` —
a legal full translation by the claim's own wording (no string leaves,
non-string leaves unchanged) — the merged document binds `"a"` to `0`,
which the diff treats as falsy/untranslated, so the diff is `{"a": 0}`,
not the empty document. -/
theorem C4_counterexample :
    isFullTranslationSpec [("a", JValue.num 0)] [("a", JValue.num 0)] = true ∧
    findMissingTranslations [("a", JValue.num 0)]
      (mergeTranslations (.obj []) [("a", JValue.num 0)]) =
      .ok [("a", JValue.num 0)] ∧
    (("a", JValue.num 0) :: ([] : Doc)) ≠ [] := by
  refine ⟨?_, ?_, by simp⟩
  · simp [isFullTranslationSpec, isFullTranslationWith, valRelB]
  · simp [findMissingTranslations, mergeTranslations, mergeLoop, jsSpread, setKey,
      getProp, truthy, Except.map]

/-- Claim C4 (amended): for a well-formed document whose leaves are all
truthy (non-empty strings, non-zero numbers, `true`; no `null` leaves) and
a full translation replacing every string leaf by a non-empty string,
merging the translation into any existing translation leaves nothing to
diff: `findMissingTranslations(D, mergeTranslations(E, T))` is the empty
document. -/
theorem C4_diff_after_merge (D T E : Doc)
    (hnd : docNodupB D = true) (htr : truthyDocB D = true)
    (hft : isFullTranslation D T = true) :
    findMissingTranslations D (mergeTranslations (.obj E) T) = .ok [] :=
  C4_aux (sizeOf D + 1) D (by omega) T (.obj E) hnd htr hft

/-- Concrete original document for the C4 evaluation. -/
def DW4 : Doc :=
  [("greeting", .str "Hello"), ("nested", .obj [("bye", .str "Bye")]), ("count", .num 5)]

/-- Concrete full translation of `DW4`. -/
def TW4 : Doc :=
  [("greeting", .str "Hola"), ("nested", .obj [("bye", .str "Adios")]), ("count", .num 5)]

/-- Concrete pre-existing partial translation. -/
def EW4 : Doc := [("greeting", .str "Stale")]

/-- Concrete evaluation of the amended C4. -/
theorem C4_witness :
    findMissingTranslations DW4 (mergeTranslations (.obj EW4) TW4) = .ok [] :=
  C4_diff_after_merge DW4 TW4 EW4
    (by simp [DW4, docNodupB, valNodupB])
    (by simp [DW4, truthyDocB, truthyValB, truthy])
    (by simp [DW4, TW4, isFullTranslation, isFullTranslationWith, valRelB])

end Translatron